import Mathlib

/-!
Verification development for the dimensional-data generator
`generate_company_date_dim.py`: a shallow embedding of its data model and
algorithms (industry hashing, baseline-status computation, date-grid
expansion, randomized Trialing-to-Paying conversion), together with theorems
about the embedded definitions.

Conventions of the embedding:
* calendar dates are day numbers (`Nat`);
* a CSV cell that may be null is an `Option`;
* the table remembers which of the optional status columns exist;
* the numpy random generator is an abstract stateful oracle (`RngOps`):
  its two operations are deterministic functions of the generator state;
* Python `float` configuration ratios are modelled as exact rationals;
  `int(x)` on a nonnegative product is truncation, done on numerator and
  denominator with integer arithmetic;
* Python string comparison (used by pandas when sorting object arrays)
  is code-point lexicographic comparison, `pyStrLe` below.
-/

set_option maxRecDepth 40000

namespace AnonAppPlatform

/-! ## Generic helpers -/

/-- Little-endian byte expansion of a number, `n` bytes wide. -/
def leBytes : Nat → Nat → List Nat
  | 0, _ => []
  | n + 1, x => (x % 256) :: leBytes n (x / 256)

/-- Read a little-endian byte list as a number. -/
def leNat (l : List Nat) : Nat := l.foldr (fun b acc => b + 256 * acc) 0

/-- First-occurrence deduplication, accumulator-based (the semantics of
`pandas.Series.unique`, which keeps the first occurrence of each value). -/
def firstUniqueAux (seen : List String) : List String → List String
  | [] => []
  | x :: xs =>
    if seen.contains x then firstUniqueAux seen xs
    else x :: firstUniqueAux (x :: seen) xs

/-- First-occurrence deduplication of a list of strings. -/
def firstUnique (l : List String) : List String := firstUniqueAux [] l

/-- Code-point lexicographic comparison of character lists (the ordering
Python uses for `str`). -/
def pyCharListLe : List Char → List Char → Bool
  | [], _ => true
  | _ :: _, [] => false
  | a :: as, b :: bs =>
    if a.toNat < b.toNat then true
    else if b.toNat < a.toNat then false
    else pyCharListLe as bs

/-- Python string less-or-equal: code-point lexicographic order. -/
def pyStrLe (a b : String) : Bool := pyCharListLe a.data b.data

/-- `pyStrLe` as a relation, for use with `List.insertionSort`. -/
def pyStrLeP (a b : String) : Prop := pyStrLe a b = true

instance : DecidableRel pyStrLeP := fun a b =>
  inferInstanceAs (Decidable (pyStrLe a b = true))

/-- Sort a list of strings ascending in Python string order (what pandas
does when sorting an object array of strings). -/
def sortStrings (l : List String) : List String := l.insertionSort pyStrLeP

/-- Map a fallible function over a list, stopping at the first failure
(the semantics of a Python loop that may raise). -/
def mapOrErr (f : α → Except String β) : List α → Except String (List β)
  | [] => .ok []
  | a :: as =>
    match f a with
    | .error e => .error e
    | .ok b =>
      match mapOrErr f as with
      | .error e => .error e
      | .ok bs => .ok (b :: bs)

/-! ## MD5 (as used by `hashlib.md5`)

A direct embedding of the MD5 algorithm on byte lists, with 32-bit words as
`Nat` reduced mod `2 ^ 32`.  `md5HexNat` is the value of Python's
`int(hashlib.md5(b).hexdigest(), 16)`: the digest bytes read as one
big-endian integer. -/

/-- The 32-bit word modulus. -/
def U32 : Nat := 2 ^ 32

/-- Left-rotation of a 32-bit word. -/
def rotl32 (x c : Nat) : Nat := (x % 2 ^ (32 - c)) * 2 ^ c + x / 2 ^ (32 - c)

/-- The MD5 sine-derived round constants. -/
def md5K : List Nat :=
  [0xd76aa478, 0xe8c7b756, 0x242070db, 0xc1bdceee,
   0xf57c0faf, 0x4787c62a, 0xa8304613, 0xfd469501,
   0x698098d8, 0x8b44f7af, 0xffff5bb1, 0x895cd7be,
   0x6b901122, 0xfd987193, 0xa679438e, 0x49b40821,
   0xf61e2562, 0xc040b340, 0x265e5a51, 0xe9b6c7aa,
   0xd62f105d, 0x02441453, 0xd8a1e681, 0xe7d3fbc8,
   0x21e1cde6, 0xc33707d6, 0xf4d50d87, 0x455a14ed,
   0xa9e3e905, 0xfcefa3f8, 0x676f02d9, 0x8d2a4c8a,
   0xfffa3942, 0x8771f681, 0x6d9d6122, 0xfde5380c,
   0xa4beea44, 0x4bdecfa9, 0xf6bb4b60, 0xbebfbc70,
   0x289b7ec6, 0xeaa127fa, 0xd4ef3085, 0x04881d05,
   0xd9d4d039, 0xe6db99e5, 0x1fa27cf8, 0xc4ac5665,
   0xf4292244, 0x432aff97, 0xab9423a7, 0xfc93a039,
   0x655b59c3, 0x8f0ccc92, 0xffeff47d, 0x85845dd1,
   0x6fa87e4f, 0xfe2ce6e0, 0xa3014314, 0x4e0811a1,
   0xf7537e82, 0xbd3af235, 0x2ad7d2bb, 0xeb86d391]

/-- The MD5 per-round left-rotation amounts. -/
def md5S : List Nat :=
  [7, 12, 17, 22, 7, 12, 17, 22, 7, 12, 17, 22, 7, 12, 17, 22,
   5, 9, 14, 20, 5, 9, 14, 20, 5, 9, 14, 20, 5, 9, 14, 20,
   4, 11, 16, 23, 4, 11, 16, 23, 4, 11, 16, 23, 4, 11, 16, 23,
   6, 10, 15, 21, 6, 10, 15, 21, 6, 10, 15, 21, 6, 10, 15, 21]

/-- The MD5 round mixing function (F, G, H, I depending on the round). -/
def md5F (i b c d : Nat) : Nat :=
  if i < 16 then (b &&& c) ||| ((b ^^^ 0xffffffff) &&& d)
  else if i < 32 then (d &&& b) ||| ((d ^^^ 0xffffffff) &&& c)
  else if i < 48 then b ^^^ c ^^^ d
  else c ^^^ (b ||| (d ^^^ 0xffffffff))

/-- The MD5 message-word schedule. -/
def md5g (i : Nat) : Nat :=
  if i < 16 then i
  else if i < 32 then (5 * i + 1) % 16
  else if i < 48 then (3 * i + 5) % 16
  else (7 * i) % 16

/-- MD5 padding: append `0x80`, zero-pad to 56 mod 64, then the bit length
as a 64-bit little-endian quantity. -/
def md5pad (msg : List Nat) : List Nat :=
  let len := msg.length
  let zeros := (56 + 64 - ((len + 1) % 64)) % 64
  msg ++ [0x80] ++ List.replicate zeros 0 ++ leBytes 8 ((len * 8) % 2 ^ 64)

/-- Split a byte list into 64-byte chunks (fueled structural recursion). -/
def chunks64Aux : Nat → List Nat → List (List Nat)
  | 0, _ => []
  | fuel + 1, l => if l.isEmpty then [] else l.take 64 :: chunks64Aux fuel (l.drop 64)

/-- Split a byte list into 64-byte chunks. -/
def chunks64 (l : List Nat) : List (List Nat) := chunks64Aux l.length l

/-- One MD5 round step acting on the state `(a, b, c, d)`. -/
def md5step (M : Nat → Nat) (st : Nat × Nat × Nat × Nat) (i : Nat) :
    Nat × Nat × Nat × Nat :=
  let a := st.1; let b := st.2.1; let c := st.2.2.1; let d := st.2.2.2
  let f := (md5F i b c d + a + md5K.getD i 0 + M (md5g i)) % U32
  (d, (b + rotl32 f (md5S.getD i 0)) % U32, b, c)

/-- Process one 64-byte chunk: 64 round steps, then add into the state. -/
def md5chunk (h : Nat × Nat × Nat × Nat) (chunk : List Nat) :
    Nat × Nat × Nat × Nat :=
  let M := fun g => leNat ((chunk.drop (4 * g)).take 4)
  let r := (List.range 64).foldl (md5step M) h
  ((h.1 + r.1) % U32, (h.2.1 + r.2.1) % U32,
   (h.2.2.1 + r.2.2.1) % U32, (h.2.2.2 + r.2.2.2) % U32)

/-- The 16-byte MD5 digest of a byte list. -/
def md5digest (msg : List Nat) : List Nat :=
  let r := (chunks64 (md5pad msg)).foldl md5chunk
    (0x67452301, 0xefcdab89, 0x98badcfe, 0x10325476)
  leBytes 4 r.1 ++ leBytes 4 r.2.1 ++ leBytes 4 r.2.2.1 ++ leBytes 4 r.2.2.2

/-- `int(hashlib.md5(msg).hexdigest(), 16)`: the digest as a big-endian
unsigned integer. -/
def md5HexNat (msg : List Nat) : Nat :=
  (md5digest msg).foldl (fun acc b => acc * 256 + b) 0

/-- UTF-8 encoding of one character. -/
def charUtf8 (c : Char) : List Nat :=
  let n := c.toNat
  if n < 0x80 then [n]
  else if n < 0x800 then [0xc0 + n / 64, 0x80 + n % 64]
  else if n < 0x10000 then [0xe0 + n / 4096, 0x80 + n / 64 % 64, 0x80 + n % 64]
  else [0xf0 + n / 262144, 0x80 + n / 4096 % 64, 0x80 + n / 64 % 64, 0x80 + n % 64]

/-- UTF-8 encoding of a string, `s.encode("utf-8")`. -/
def utf8Bytes (s : String) : List Nat := s.data.flatMap charUtf8

/-! ## The generator's data model -/

/-- The fixed ordered list of industry names (module constant `INDUSTRIES`). -/
def INDUSTRIES : List String :=
  ["Technology", "Healthcare", "Finance", "Retail", "Manufacturing",
   "Education", "Media", "Energy", "Telecommunications", "Government",
   "Transportation", "Hospitality"]

/-- `assign_industry_deterministically`: MD5 the UTF-8 bytes of the id,
read the hex digest as an integer, reduce mod `len(INDUSTRIES)`, index. -/
def assign_industry_deterministically (company_id : String) : String :=
  INDUSTRIES.getD (md5HexNat (utf8Bytes company_id) % INDUSTRIES.length) ""

/-- One row of the input fact table `anon_company_day_fact.csv` after date
parsing.  Both `COMPANY_ID` and the status cells may be null. -/
structure FactRow where
  company_id : Option String
  view_date : Nat
  status : Option String
  company_status : Option String
deriving DecidableEq, Repr

/-- The input fact table.  `hasStatus` / `hasCompanyStatus` record whether
the optional `STATUS` / `COMPANY_STATUS` columns are present in the CSV
(headers already uppercased); the required `COMPANY_ID` and `VIEW_DATE`
columns are structural. -/
structure FactTable where
  hasStatus : Bool
  hasCompanyStatus : Bool
  rows : List FactRow
deriving DecidableEq, Repr

/-- `GenerationConfig` of the source, with the `float` ratio as an exact
rational. -/
structure GenerationConfig where
  random_seed : Int := 42
  convert_trialing_ratio : Rat := mkRat 1 10
  min_conversion_offset_days : Int := 3
  max_conversion_offset_days : Option Int := none

/-- One row of the output dimension table.  `view_date` stays a day number
(the source formats it as an ISO string on output). -/
structure DimRow where
  view_date : Nat
  company_id : String
  status : String
  industry : String
deriving DecidableEq, Repr

/-- An abstract stateful random generator over state type `σ`: the
deterministic semantics of `numpy.random.Generator.choice` (distinct
elements, without replacement) and `.integers` (values in `[low, high)`),
each consuming and producing generator state.  The contracts of the two
operations appear as hypotheses of the theorems that need them. -/
structure RngOps (σ : Type) where
  choice : List String → Nat → σ → List String × σ
  integers : Int → Int → Nat → σ → List Int × σ

/-! ## The generator pipeline, step by step -/

/-- The value of the normalized status column for one row: `STATUS` if that
column exists, otherwise `COMPANY_STATUS` if that one does (lines 77-79 of
the source), otherwise nothing. -/
def status_val (hs hcs : Bool) (r : FactRow) : Option String :=
  if hs then r.status else if hcs then r.company_status else none

/-- The non-null normalized status values of one company's fact rows
(`groupby("COMPANY_ID")["STATUS"]` followed by `dropna`). -/
def company_status_values (t : FactTable) (c : String) : List String :=
  (t.rows.filter (fun r => r.company_id == some c)).filterMap
    (status_val t.hasStatus t.hasCompanyStatus)

/-- The largest multiplicity of any value in the list. -/
def max_count (l : List String) : Nat :=
  (l.map (fun v => l.count v)).foldr max 0

/-- `Series.mode`: all values of maximal multiplicity, sorted ascending. -/
def series_mode (l : List String) : List String :=
  sortStrings ((firstUnique l).filter (fun v => l.count v == max_count l))

/-- `_mode_or_trialing`: the first mode of the non-null statuses, or
`"Trialing"` when there are none. -/
def mode_or_trialing (l : List String) : String :=
  if l.isEmpty then "Trialing"
  else
    match series_mode l with
    | [] => "Trialing"
    | m :: _ => m

/-- `compute_baseline_status_by_company`, as a function from company id to
baseline status (the source materializes it as a dict over the groupby
keys). -/
def compute_baseline_status_by_company (t : FactTable) (c : String) : String :=
  mode_or_trialing (company_status_values t c)

/-- `fact_df["COMPANY_ID"].dropna().unique()`: distinct non-null company
ids in first-occurrence order. -/
def unique_companies (t : FactTable) : List String :=
  firstUnique ((t.rows.map FactRow.company_id).filterMap id)

/-- `fact_df["VIEW_DATE"].min()`: `none` on an empty table. -/
def min_view_date (t : FactTable) : Option Nat :=
  match t.rows.map FactRow.view_date with
  | [] => none
  | d :: ds => some (ds.foldl min d)

/-- `fact_df["VIEW_DATE"].max()`: `none` on an empty table. -/
def max_view_date (t : FactTable) : Option Nat :=
  match t.rows.map FactRow.view_date with
  | [] => none
  | d :: ds => some (ds.foldl max d)

/-- `pd.date_range(min_date, max_date, freq="D")`: every day from the
global minimum to the global maximum, inclusive. -/
def date_index (t : FactTable) : List Nat :=
  match min_view_date t, max_view_date t with
  | some lo, some hi => List.range' lo (hi - lo + 1)
  | _, _ => []

/-- `total_days = len(date_index)`. -/
def total_days (t : FactTable) : Nat := (date_index t).length

/-- `MultiIndex.from_product([unique_companies, date_index])`: the company
major cartesian product. -/
def dim_pairs (t : FactTable) : List (String × Nat) :=
  (unique_companies t).product (date_index t)

/-- The groupby keys (distinct non-null company ids) in sorted order, which
is the iteration order of the baseline dict. -/
def sorted_company_keys (t : FactTable) : List String :=
  sortStrings (unique_companies t)

/-- `trialing_companies`: baseline-dict entries whose status is
`"Trialing"`, in dict (sorted-key) order. -/
def trialing_companies (t : FactTable) : List String :=
  (sorted_company_keys t).filter
    (fun c => compute_baseline_status_by_company t c == "Trialing")

/-- `num_to_convert = int(len(trialing_companies) * ratio)`: the product is
the exact rational with numerator `len * ratio.num` and denominator
`ratio.den`, and Python `int()` truncates toward zero (`Int.tdiv`). -/
def num_to_convert (cfg : GenerationConfig) (t : FactTable) : Nat :=
  (Int.tdiv (((trialing_companies t).length : Int) * cfg.convert_trialing_ratio.num)
    (cfg.convert_trialing_ratio.den : Int)).toNat

/-- `companies_to_convert`: the `rng.choice` draw when the eligible list is
non-empty and the count is positive, the empty selection otherwise (the
rng is consulted only in the first case). -/
def companies_to_convert {σ : Type} (ops : RngOps σ) (s0 : σ)
    (cfg : GenerationConfig) (t : FactTable) : List String × σ :=
  if (trialing_companies t).isEmpty then ([], s0)
  else if 0 < num_to_convert cfg t then
    ops.choice (trialing_companies t) (num_to_convert cfg t) s0
  else ([], s0)

/-- The selected companies. -/
def selected {σ : Type} (ops : RngOps σ) (s0 : σ) (cfg : GenerationConfig)
    (t : FactTable) : List String :=
  (companies_to_convert ops s0 cfg t).1

/-- The generator state after the selection draw. -/
def rng_after_choice {σ : Type} (ops : RngOps σ) (s0 : σ)
    (cfg : GenerationConfig) (t : FactTable) : σ :=
  (companies_to_convert ops s0 cfg t).2

/-- `min_offset = min(config.min_conversion_offset_days, max(total_days - 1, 0))`. -/
def min_offset (cfg : GenerationConfig) (total : Nat) : Int :=
  min cfg.min_conversion_offset_days (max ((total : Int) - 1) 0)

/-- `max_offset`, defaulted to `total_days - 1` and clamped into
`[min_offset, total_days - 1]`. -/
def max_offset (cfg : GenerationConfig) (total : Nat) : Int :=
  max (min_offset cfg total)
    (min (cfg.max_conversion_offset_days.getD ((total : Int) - 1)) ((total : Int) - 1))

/-- `conversion_offsets = rng.integers(min_offset, max_offset + 1, size=len(selected))`,
drawn from the post-selection generator state. -/
def drawn_offsets {σ : Type} (ops : RngOps σ) (s0 : σ) (cfg : GenerationConfig)
    (t : FactTable) : List Int :=
  (ops.integers (min_offset cfg (total_days t)) (max_offset cfg (total_days t) + 1)
    (selected ops s0 cfg t).length (rng_after_choice ops s0 cfg t)).1

/-- Python/numpy sequence indexing: nonnegative indices are plain, negative
indices wrap once from the end, everything else is an `IndexError`. -/
def date_at (dates : List Nat) (i : Int) : Option Nat :=
  if 0 ≤ i then dates.get? i.toNat
  else if (-i).toNat ≤ dates.length then dates.get? (dates.length - (-i).toNat)
  else none

/-- `company_to_convdate = {cid: date_index[offset] for cid, offset in zip(...)}`:
builds the conversion-date mapping, failing like Python on an out-of-range
offset. -/
def company_to_convdate (dates : List Nat) (sel : List String)
    (offs : List Int) : Except String (List (String × Nat)) :=
  mapOrErr
    (fun p =>
      match date_at dates p.2 with
      | some d => .ok (p.1, d)
      | none => .error "IndexError: index out of bounds")
    (sel.zip offs)

/-- Python dict lookup over the association list (later bindings win). -/
def dict_find (m : List (String × Nat)) (c : String) : Option Nat :=
  m.reverse.lookup c

/-- The row mask `view_date >= conversion_date` for one company and day; a
company absent from the mapping compares like `NaT`, i.e. `false`. -/
def conv_applies (m : List (String × Nat)) (c : String) (d : Nat) : Bool :=
  match dict_find m c with
  | some cd => decide (cd ≤ d)
  | none => false

/-- The output status of one `(company, day)` cell: `"Paying"` when the
company is selected and the day is on/after its conversion date, the
company's baseline status otherwise (lines 98 and 130-136). -/
def row_status (t : FactTable) (sel : List String) (m : List (String × Nat))
    (c : String) (d : Nat) : String :=
  if sel.contains c && conv_applies m c d then "Paying"
  else compute_baseline_status_by_company t c

/-- One output row for a `(company, day)` grid cell. -/
def dim_row (t : FactTable) (sel : List String) (m : List (String × Nat))
    (p : String × Nat) : DimRow :=
  { view_date := p.2
    company_id := p.1
    status := row_status t sel m p.1 p.2
    industry := assign_industry_deterministically p.1 }

/-- `generate_company_date_dim`.  Failure points, in source order: an empty
table makes `pd.date_range` raise on `NaT` bounds (line 88); a table with
neither status column makes the groupby column selection raise `KeyError`
(line 97 via line 59); an out-of-range conversion offset raises
`IndexError` (line 127).  Otherwise the result is one row per cell of the
company-by-date grid. -/
def generate_company_date_dim {σ : Type} (ops : RngOps σ) (s0 : σ)
    (cfg : GenerationConfig) (t : FactTable) : Except String (List DimRow) :=
  match min_view_date t with
  | none => .error "Neither `start` nor `end` can be NaT"
  | some _ =>
    if t.hasStatus || t.hasCompanyStatus then
      if (selected ops s0 cfg t).isEmpty then
        .ok ((dim_pairs t).map (dim_row t [] []))
      else
        match company_to_convdate (date_index t) (selected ops s0 cfg t)
            (drawn_offsets ops s0 cfg t) with
        | .error e => .error e
        | .ok m => .ok ((dim_pairs t).map (dim_row t (selected ops s0 cfg t) m))
    else .error "Column not found: STATUS"

/-- Exactly one Trialing-to-Paying switch for company `c` at day `d`: every
row of `c` strictly before `d` is `"Trialing"` and every row on/after `d`
is `"Paying"`. -/
def transition_at (out : List DimRow) (c : String) (d : Nat) : Prop :=
  ∀ r ∈ out, r.company_id = c →
    (r.view_date < d → r.status = "Trialing") ∧ (d ≤ r.view_date → r.status = "Paying")

instance (out : List DimRow) (c : String) (d : Nat) :
    Decidable (transition_at out c d) := by
  unfold transition_at
  infer_instance

/-! ## Concrete instances used by the witnesses -/

/-- A simple well-behaved random oracle over `Nat` states: choice takes the
first `n` eligible companies, integers returns the lower bound. -/
def trivRng : RngOps Nat where
  choice := fun l n s => (l.take n, s + 1)
  integers := fun lo _ n s => (List.replicate n lo, s + 1)

/-- The default configuration (seed 42, ratio 1/10, minimum offset 3). -/
def cfg0 : GenerationConfig := {}

/-- Shorthand for building a fact row with a non-null company id. -/
def mkFactRow (c : String) (d : Nat) (s : Option String) : FactRow :=
  { company_id := some c, view_date := d, status := s, company_status := none }

/-- A small table: companies A and B, days 0..2, A trialing, B paying. -/
def T0 : FactTable where
  hasStatus := true
  hasCompanyStatus := false
  rows :=
    [mkFactRow "A" 0 (some "Trialing"), mkFactRow "A" 1 (some "Trialing"),
     mkFactRow "B" 0 (some "Paying"), mkFactRow "A" 2 none]

/-- The generator output on `T0` under the default configuration. -/
def outT0 : List DimRow :=
  (generate_company_date_dim trivRng 0 cfg0 T0).toOption.getD []

/-- An empty fact table (status columns present, no rows). -/
def TE : FactTable where
  hasStatus := true
  hasCompanyStatus := false
  rows := []

/-- A table with `COMPANY_ID` and `VIEW_DATE` but no status column at all. -/
def T9 : FactTable where
  hasStatus := false
  hasCompanyStatus := false
  rows := [mkFactRow "A" 0 none]

/-- A configuration that converts every eligible company with offsets
starting at day index 1. -/
def cfg2 : GenerationConfig where
  random_seed := 42
  convert_trialing_ratio := mkRat 1 1
  min_conversion_offset_days := 1
  max_conversion_offset_days := none

/-- Companies A and B over days 0..3, both baseline Trialing. -/
def T2 : FactTable where
  hasStatus := true
  hasCompanyStatus := false
  rows := [mkFactRow "A" 0 (some "Trialing"), mkFactRow "B" 3 (some "Trialing")]

/-- The generator output on `T2` under `cfg2`. -/
def outT2 : List DimRow :=
  (generate_company_date_dim trivRng 0 cfg2 T2).toOption.getD []

/-- A table whose company A has a status tie: one "Trialing", one "Paying". -/
def T10 : FactTable where
  hasStatus := true
  hasCompanyStatus := false
  rows := [mkFactRow "A" 0 (some "Trialing"), mkFactRow "A" 1 (some "Paying")]

/-! ## Properties of the string order -/

theorem char_toNat_inj {a b : Char} (h : a.toNat = b.toNat) : a = b :=
  Char.eq_of_val_eq (UInt32.eq_of_toBitVec_eq (BitVec.eq_of_toNat_eq h))

theorem pyCharListLe_total : ∀ a b : List Char,
    pyCharListLe a b = true ∨ pyCharListLe b a = true
  | [], _ => by left; rfl
  | _ :: _, [] => by right; rfl
  | a :: as, b :: bs => by
    rcases Nat.lt_trichotomy a.toNat b.toNat with h | h | h
    · left
      simp only [pyCharListLe]
      rw [if_pos h]
    · rcases pyCharListLe_total as bs with h' | h'
      · left
        simp only [pyCharListLe]
        rw [if_neg (by omega), if_neg (by omega)]
        exact h'
      · right
        simp only [pyCharListLe]
        rw [if_neg (by omega), if_neg (by omega)]
        exact h'
    · right
      simp only [pyCharListLe]
      rw [if_pos h]

theorem pyCharListLe_trans : ∀ a b c : List Char,
    pyCharListLe a b = true → pyCharListLe b c = true → pyCharListLe a c = true
  | [], _, _ => by intro _ _; rfl
  | a :: as, [], _ => by intro h; simp [pyCharListLe] at h
  | _ :: _, _ :: _, [] => by intro _ h; simp [pyCharListLe] at h
  | a :: as, b :: bs, c :: cs => by
    intro hab hbc
    simp only [pyCharListLe] at hab hbc ⊢
    rcases Nat.lt_trichotomy a.toNat b.toNat with h₁ | h₁ | h₁
    · rcases Nat.lt_trichotomy b.toNat c.toNat with h₂ | h₂ | h₂
      · rw [if_pos (by omega)]
      · rw [if_pos (by omega)]
      · rw [if_neg (by omega), if_pos h₂] at hbc
        exact absurd hbc (by simp)
    · rw [if_neg (by omega), if_neg (by omega)] at hab
      rcases Nat.lt_trichotomy b.toNat c.toNat with h₂ | h₂ | h₂
      · rw [if_pos (by omega)]
      · rw [if_neg (by omega), if_neg (by omega)] at hbc
        rw [if_neg (by omega), if_neg (by omega)]
        exact pyCharListLe_trans as bs cs hab hbc
      · rw [if_neg (by omega), if_pos h₂] at hbc
        exact absurd hbc (by simp)
    · rw [if_neg (by omega), if_pos h₁] at hab
      exact absurd hab (by simp)

theorem pyCharListLe_antisymm : ∀ a b : List Char,
    pyCharListLe a b = true → pyCharListLe b a = true → a = b
  | [], [] => by intro _ _; rfl
  | [], _ :: _ => by intro _ h; simp [pyCharListLe] at h
  | _ :: _, [] => by intro h _; simp [pyCharListLe] at h
  | a :: as, b :: bs => by
    intro hab hba
    simp only [pyCharListLe] at hab hba
    rcases Nat.lt_trichotomy a.toNat b.toNat with h | h | h
    · rw [if_neg (by omega), if_pos h] at hba
      exact absurd hba (by simp)
    · rw [if_neg (by omega), if_neg (by omega)] at hab hba
      have hc : a = b := char_toNat_inj h
      rw [hc, pyCharListLe_antisymm as bs hab hba]
    · rw [if_neg (by omega), if_pos h] at hab
      exact absurd hab (by simp)

instance : IsTotal String pyStrLeP :=
  ⟨fun a b => pyCharListLe_total a.data b.data⟩

instance : IsTrans String pyStrLeP :=
  ⟨fun a b c => pyCharListLe_trans a.data b.data c.data⟩

instance : IsAntisymm String pyStrLeP :=
  ⟨fun a b h₁ h₂ => by
    have h3 := pyCharListLe_antisymm a.data b.data h₁ h₂
    cases a
    cases b
    exact congrArg String.mk h3⟩

theorem string_contains_iff {l : List String} {a : String} :
    l.contains a = true ↔ a ∈ l := List.elem_iff

theorem sortStrings_sorted (l : List String) :
    (sortStrings l).Sorted pyStrLeP :=
  List.sorted_insertionSort pyStrLeP l

theorem sortStrings_perm (l : List String) : List.Perm (sortStrings l) l :=
  List.perm_insertionSort pyStrLeP l

theorem mem_sortStrings {l : List String} {a : String} :
    a ∈ sortStrings l ↔ a ∈ l :=
  (sortStrings_perm l).mem_iff

theorem sortStrings_head_le {x : String} {xs : List String} {h : String}
    {t : List String} (he : sortStrings (x :: xs) = h :: t) :
    ∀ b ∈ x :: xs, pyStrLeP h b := by
  intro b hb
  have hs : (h :: t).Sorted pyStrLeP := he ▸ sortStrings_sorted (x :: xs)
  have hmem : b ∈ h :: t := by
    rw [← he]
    exact mem_sortStrings.mpr hb
  rcases List.mem_cons.mp hmem with hbh | hbt
  · subst hbh
    rcases pyCharListLe_total b.data b.data with h' | h' <;> exact h'
  · exact List.rel_of_sorted_cons hs b hbt

/-! ## Properties of `firstUnique` -/

theorem firstUniqueAux_cons_seen {seen : List String} {x : String}
    (xs : List String) (hx : seen.contains x = true) :
    firstUniqueAux seen (x :: xs) = firstUniqueAux seen xs := by
  conv_lhs => rw [firstUniqueAux]
  rw [if_pos hx]

theorem firstUniqueAux_cons_new {seen : List String} {x : String}
    (xs : List String) (hx : ¬ seen.contains x = true) :
    firstUniqueAux seen (x :: xs) = x :: firstUniqueAux (x :: seen) xs := by
  conv_lhs => rw [firstUniqueAux]
  rw [if_neg hx]

theorem mem_firstUniqueAux : ∀ (seen l : List String) (a : String),
    a ∈ firstUniqueAux seen l ↔ a ∈ l ∧ ¬ a ∈ seen
  | seen, [], a => by simp [firstUniqueAux]
  | seen, x :: xs, a => by
    by_cases hx : seen.contains x
    · rw [firstUniqueAux_cons_seen xs hx, mem_firstUniqueAux seen xs a]
      constructor
      · rintro ⟨h₁, h₂⟩
        exact ⟨List.mem_cons_of_mem _ h₁, h₂⟩
      · rintro ⟨h₁, h₂⟩
        rcases List.mem_cons.mp h₁ with rfl | h₁
        · exact absurd (string_contains_iff.mp hx) h₂
        · exact ⟨h₁, h₂⟩
    · rw [firstUniqueAux_cons_new xs hx, List.mem_cons,
        mem_firstUniqueAux (x :: seen) xs a]
      constructor
      · rintro (rfl | ⟨h₁, h₂⟩)
        · refine ⟨List.mem_cons_self _ _, fun hc => hx ?_⟩
          exact string_contains_iff.mpr hc
        · refine ⟨List.mem_cons_of_mem _ h₁, fun hc => h₂ ?_⟩
          exact List.mem_cons_of_mem _ hc
      · rintro ⟨h₁, h₂⟩
        by_cases hax : a = x
        · exact Or.inl hax
        · rcases List.mem_cons.mp h₁ with rfl | h₁
          · exact absurd rfl hax
          · refine Or.inr ⟨h₁, fun hc => ?_⟩
            rcases List.mem_cons.mp hc with rfl | hc
            · exact hax rfl
            · exact h₂ hc

theorem mem_firstUnique {l : List String} {a : String} :
    a ∈ firstUnique l ↔ a ∈ l := by
  rw [firstUnique, mem_firstUniqueAux]
  simp

theorem nodup_firstUniqueAux : ∀ (seen l : List String),
    (firstUniqueAux seen l).Nodup
  | seen, [] => List.nodup_nil
  | seen, x :: xs => by
    by_cases hx : seen.contains x
    · rw [firstUniqueAux_cons_seen xs hx]
      exact nodup_firstUniqueAux seen xs
    · rw [show firstUniqueAux seen (x :: xs)
          = x :: firstUniqueAux (x :: seen) xs by
        simp only [firstUniqueAux]; rw [if_neg hx]]
      refine List.nodup_cons.mpr ⟨fun hc => ?_, nodup_firstUniqueAux (x :: seen) xs⟩
      exact ((mem_firstUniqueAux (x :: seen) xs x).mp hc).2 (List.mem_cons_self _ _)

theorem nodup_firstUnique (l : List String) : (firstUnique l).Nodup :=
  nodup_firstUniqueAux [] l

theorem count_firstUnique (l : List String) (a : String) :
    (firstUnique l).count a = if a ∈ l then 1 else 0 := by
  by_cases h : a ∈ l
  · rw [if_pos h]
    exact List.count_eq_one_of_mem (nodup_firstUnique l) (mem_firstUnique.mpr h)
  · rw [if_neg h]
    exact List.count_eq_zero_of_not_mem (fun hc => h (mem_firstUnique.mp hc))

theorem firstUnique_perm_of_perm {l₁ l₂ : List String}
    (h : List.Perm l₁ l₂) : List.Perm (firstUnique l₁) (firstUnique l₂) := by
  rw [List.perm_iff_count]
  intro a
  rw [count_firstUnique, count_firstUnique]
  simp [h.mem_iff]

/-! ## Extremes of folds -/

theorem foldl_min_le_init : ∀ (ds : List Nat) (d : Nat), ds.foldl min d ≤ d
  | [], d => Nat.le_refl d
  | x :: xs, d =>
    Nat.le_trans (foldl_min_le_init xs (min d x)) (Nat.min_le_left d x)

theorem foldl_min_le_mem : ∀ (ds : List Nat) (d a : Nat), a ∈ ds → ds.foldl min d ≤ a
  | [], _, _, h => absurd h (List.not_mem_nil _)
  | x :: xs, d, a, h => by
    rcases List.mem_cons.mp h with rfl | h
    · exact Nat.le_trans (foldl_min_le_init xs (min d a)) (Nat.min_le_right d a)
    · exact foldl_min_le_mem xs (min d x) a h

theorem foldl_min_mem : ∀ (ds : List Nat) (d : Nat), ds.foldl min d ∈ d :: ds
  | [], d => List.mem_cons_self d []
  | x :: xs, d => by
    rw [List.foldl_cons]
    rcases List.mem_cons.mp (foldl_min_mem xs (min d x)) with he | he
    · rw [he]
      rcases Nat.le_total d x with h | h
      · rw [Nat.min_eq_left h]
        exact List.mem_cons_self _ _
      · rw [Nat.min_eq_right h]
        exact List.mem_cons_of_mem _ (List.mem_cons_self _ _)
    · exact List.mem_cons_of_mem _ (List.mem_cons_of_mem _ he)

theorem le_foldl_max_init : ∀ (ds : List Nat) (d : Nat), d ≤ ds.foldl max d
  | [], d => Nat.le_refl d
  | x :: xs, d =>
    Nat.le_trans (Nat.le_max_left d x) (le_foldl_max_init xs (max d x))

theorem le_foldl_max_mem : ∀ (ds : List Nat) (d a : Nat), a ∈ ds → a ≤ ds.foldl max d
  | [], _, _, h => absurd h (List.not_mem_nil _)
  | x :: xs, d, a, h => by
    rcases List.mem_cons.mp h with rfl | h
    · exact Nat.le_trans (Nat.le_max_right d a) (le_foldl_max_init xs (max d a))
    · exact le_foldl_max_mem xs (max d x) a h

theorem foldl_max_mem : ∀ (ds : List Nat) (d : Nat), ds.foldl max d ∈ d :: ds
  | [], d => List.mem_cons_self d []
  | x :: xs, d => by
    rw [List.foldl_cons]
    rcases List.mem_cons.mp (foldl_max_mem xs (max d x)) with he | he
    · rw [he]
      rcases Nat.le_total d x with h | h
      · rw [Nat.max_eq_right h]
        exact List.mem_cons_of_mem _ (List.mem_cons_self _ _)
      · rw [Nat.max_eq_left h]
        exact List.mem_cons_self _ _
    · exact List.mem_cons_of_mem _ (List.mem_cons_of_mem _ he)

/-! ## Properties of `max_count` and `series_mode` -/

theorem foldr_max_perm {l₁ l₂ : List Nat} (p : List.Perm l₁ l₂) (a : Nat) :
    l₁.foldr max a = l₂.foldr max a := by
  induction p with
  | nil => rfl
  | cons x _ ih => simp only [List.foldr_cons, ih]
  | swap x y l => simp only [List.foldr_cons]; exact max_left_comm _ _ _
  | trans _ _ ih₁ ih₂ => rw [ih₁, ih₂]

theorem le_foldr_max_map {f : String → Nat} : ∀ (l : List String) (b : String),
    b ∈ l → f b ≤ (l.map f).foldr max 0
  | [], _, h => absurd h (List.not_mem_nil _)
  | x :: xs, b, h => by
    rw [List.map_cons, List.foldr_cons]
    rcases List.mem_cons.mp h with rfl | h
    · exact Nat.le_max_left _ _
    · exact Nat.le_trans (le_foldr_max_map xs b h) (Nat.le_max_right _ _)

theorem foldr_max_map_attained {f : String → Nat} : ∀ (l : List String),
    l ≠ [] → ∃ b ∈ l, (l.map f).foldr max 0 ≤ f b
  | [], h => absurd rfl h
  | x :: xs, _ => by
    rw [List.map_cons, List.foldr_cons]
    by_cases hxs : xs = []
    · subst hxs
      refine ⟨x, List.mem_cons_self _ _, ?_⟩
      simp
    · obtain ⟨b, hb, hle⟩ := foldr_max_map_attained xs hxs
      rcases Nat.le_total (f x) ((xs.map f).foldr max 0) with h | h
      · refine ⟨b, List.mem_cons_of_mem _ hb, ?_⟩
        rw [Nat.max_eq_right h]
        exact hle
      · refine ⟨x, List.mem_cons_self _ _, ?_⟩
        rw [Nat.max_eq_left h]

theorem count_le_max_count {l : List String} {v : String} (h : v ∈ l) :
    l.count v ≤ max_count l := by
  unfold max_count
  exact @le_foldr_max_map (fun w => l.count w) l v h

theorem exists_count_eq_max_count {l : List String} (h : l ≠ []) :
    ∃ v ∈ l, l.count v = max_count l := by
  obtain ⟨b, hb, hle⟩ := @foldr_max_map_attained (fun v => l.count v) l h
  exact ⟨b, hb, Nat.le_antisymm (count_le_max_count hb) hle⟩

theorem max_count_perm {l₁ l₂ : List String} (p : List.Perm l₁ l₂) :
    max_count l₁ = max_count l₂ := by
  unfold max_count
  have h1 : (fun v => l₁.count v) = fun v => l₂.count v :=
    funext fun v => p.count_eq v
  rw [h1]
  exact foldr_max_perm (p.map _) 0

theorem mem_series_mode {l : List String} {v : String} :
    v ∈ series_mode l ↔ v ∈ l ∧ l.count v = max_count l := by
  unfold series_mode
  rw [mem_sortStrings, List.mem_filter, mem_firstUnique]
  simp only [beq_iff_eq]

theorem series_mode_ne_nil {l : List String} (h : l ≠ []) :
    series_mode l ≠ [] := by
  obtain ⟨v, hv, hc⟩ := exists_count_eq_max_count h
  intro hnil
  have hmem : v ∈ series_mode l := mem_series_mode.mpr ⟨hv, hc⟩
  rw [hnil] at hmem
  exact absurd hmem (List.not_mem_nil _)

theorem series_mode_perm_eq {l₁ l₂ : List String} (p : List.Perm l₁ l₂) :
    series_mode l₁ = series_mode l₂ := by
  have hpred : (fun v => l₁.count v == max_count l₁)
      = fun v => l₂.count v == max_count l₂ := by
    funext v
    rw [p.count_eq v, max_count_perm p]
  have hfil : List.Perm ((firstUnique l₁).filter fun v => l₁.count v == max_count l₁)
      ((firstUnique l₂).filter fun v => l₂.count v == max_count l₂) := by
    rw [hpred]
    exact (firstUnique_perm_of_perm p).filter _
  have hperm : List.Perm (series_mode l₁) (series_mode l₂) :=
    ((sortStrings_perm _).trans hfil).trans (sortStrings_perm _).symm
  exact List.eq_of_perm_of_sorted hperm (sortStrings_sorted _) (sortStrings_sorted _)

theorem series_mode_head_le {l : List String} {m : String} {rest : List String}
    (h : series_mode l = m :: rest) :
    ∀ v ∈ series_mode l, pyStrLeP m v := by
  intro v hv
  have hs : (m :: rest).Sorted pyStrLeP := h ▸ sortStrings_sorted _
  rw [h] at hv
  rcases List.mem_cons.mp hv with rfl | hv
  · rcases pyCharListLe_total v.data v.data with h' | h' <;> exact h'
  · exact List.rel_of_sorted_cons hs v hv

/-! ## Properties of the baseline computation -/

theorem mode_or_trialing_of_nil {l : List String} (h : l = []) :
    mode_or_trialing l = "Trialing" := by
  subst h
  rfl

theorem mode_or_trialing_head {l : List String} (h : l ≠ []) :
    ∃ rest, series_mode l = mode_or_trialing l :: rest := by
  have hne := series_mode_ne_nil h
  rcases hm : series_mode l with _ | ⟨m, rest⟩
  · exact absurd hm hne
  · refine ⟨rest, ?_⟩
    unfold mode_or_trialing
    rw [if_neg (by simpa [List.isEmpty_iff] using h), hm]

theorem mode_or_trialing_spec {l : List String} (h : l ≠ []) :
    mode_or_trialing l ∈ l ∧ l.count (mode_or_trialing l) = max_count l := by
  obtain ⟨rest, hrest⟩ := mode_or_trialing_head h
  have : mode_or_trialing l ∈ series_mode l := by
    rw [hrest]
    exact List.mem_cons_self _ _
  exact mem_series_mode.mp this

theorem mode_or_trialing_perm {l₁ l₂ : List String} (p : List.Perm l₁ l₂) :
    mode_or_trialing l₁ = mode_or_trialing l₂ := by
  unfold mode_or_trialing
  have he : l₁.isEmpty = l₂.isEmpty := by
    cases l₁ <;> cases l₂ <;> first
      | rfl
      | (exfalso; have := p.length_eq; simp at this)
  rw [he, series_mode_perm_eq p]

theorem compute_baseline_perm {t t' : FactTable} (c : String)
    (hs : t'.hasStatus = t.hasStatus) (hcs : t'.hasCompanyStatus = t.hasCompanyStatus)
    (hp : List.Perm t'.rows t.rows) :
    compute_baseline_status_by_company t' c = compute_baseline_status_by_company t c := by
  unfold compute_baseline_status_by_company company_status_values
  rw [hs, hcs]
  exact mode_or_trialing_perm ((hp.filter _).filterMap _)

/-! ## Properties of `mapOrErr`, lookups and indexing -/

theorem mapOrErr_ok_forall2 {α β : Type} {f : α → Except String β} :
    ∀ {l : List α} {bs : List β}, mapOrErr f l = .ok bs →
      List.Forall₂ (fun a b => f a = .ok b) l bs
  | [], bs, h => by
    cases h
    exact List.Forall₂.nil
  | a :: as, bs, h => by
    rw [mapOrErr] at h
    cases hfa : f a with
    | error e =>
      rw [hfa] at h
      cases h
    | ok b =>
      rw [hfa] at h
      cases hrec : mapOrErr f as with
      | error e =>
        rw [hrec] at h
        cases h
      | ok bs' =>
        rw [hrec] at h
        cases h
        exact List.Forall₂.cons hfa (mapOrErr_ok_forall2 hrec)

theorem lookup_eq_some_mem {m : List (String × Nat)} {c : String} {d : Nat}
    (h : m.lookup c = some d) : (c, d) ∈ m := by
  induction m with
  | nil => cases h
  | cons p tl ih =>
    obtain ⟨k, v⟩ := p
    cases hck : (c == k) with
    | true =>
      rw [List.lookup, hck] at h
      cases h
      have hc : c = k := eq_of_beq hck
      rw [hc]
      exact List.mem_cons_self _ _
    | false =>
      rw [List.lookup, hck] at h
      exact List.mem_cons_of_mem _ (ih h)

theorem lookup_isSome_of_key_mem {m : List (String × Nat)} {c : String}
    (h : c ∈ m.map Prod.fst) : ∃ d, m.lookup c = some d := by
  induction m with
  | nil => simp at h
  | cons p tl ih =>
    obtain ⟨k, v⟩ := p
    cases hck : (c == k) with
    | true =>
      refine ⟨v, ?_⟩
      rw [List.lookup, hck]
    | false =>
      rw [List.map_cons, List.mem_cons] at h
      rcases h with h | h
      · exact absurd (beq_iff_eq.mpr h) (by rw [hck]; exact Bool.false_ne_true)
      · obtain ⟨d, hd⟩ := ih h
        refine ⟨d, ?_⟩
        rw [List.lookup, hck, hd]

theorem dict_find_mem {m : List (String × Nat)} {c : String} {d : Nat}
    (h : dict_find m c = some d) : (c, d) ∈ m :=
  List.mem_reverse.mp (lookup_eq_some_mem h)

theorem dict_find_isSome {m : List (String × Nat)} {c : String}
    (h : c ∈ m.map Prod.fst) : ∃ d, dict_find m c = some d := by
  apply lookup_isSome_of_key_mem
  rw [List.map_reverse]
  exact List.mem_reverse.mpr h

theorem date_at_mem {dates : List Nat} {i : Int} {d : Nat}
    (h : date_at dates i = some d) : d ∈ dates := by
  unfold date_at at h
  split at h
  · exact List.get?_mem h
  · split at h
    · exact List.get?_mem h
    · cases h

theorem date_at_nonneg {dates : List Nat} {i : Int} (h0 : 0 ≤ i) :
    date_at dates i = dates.get? i.toNat := by
  unfold date_at
  rw [if_pos h0]

theorem convdate_forall2_aux {dates : List Nat} {z : List (String × Int)}
    {m : List (String × Nat)}
    (hf : List.Forall₂
      (fun a b =>
        (match date_at dates a.2 with
          | some d => Except.ok (a.1, d)
          | none => Except.error "IndexError: index out of bounds") = Except.ok b)
      z m) :
    m.map Prod.fst = z.map Prod.fst
    ∧ (∀ pr ∈ m, pr.2 ∈ dates
        ∧ ∃ q ∈ z, q.1 = pr.1 ∧ date_at dates q.2 = some pr.2)
    ∧ ∀ q ∈ z, ∃ pr ∈ m, pr.1 = q.1 ∧ date_at dates q.2 = some pr.2 := by
  induction hf with
  | nil =>
    refine ⟨rfl, ?_, ?_⟩
    · intro pr hpr
      cases hpr
    · intro q hq
      cases hq
  | @cons a b l₁ l₂ ha _ ih =>
    cases hda : date_at dates a.2 with
    | none =>
      rw [hda] at ha
      cases ha
    | some d =>
      rw [hda] at ha
      cases ha
      refine ⟨by rw [List.map_cons, List.map_cons, ih.1], ?_, ?_⟩
      · intro pr hpr
        rcases List.mem_cons.mp hpr with rfl | hpr
        · exact ⟨date_at_mem hda, a, List.mem_cons_self _ _, rfl, hda⟩
        · obtain ⟨hmem, q, hq, hq1, hq2⟩ := ih.2.1 pr hpr
          exact ⟨hmem, q, List.mem_cons_of_mem _ hq, hq1, hq2⟩
      · intro q hq
        rcases List.mem_cons.mp hq with rfl | hq
        · exact ⟨(q.1, d), List.mem_cons_self _ _, rfl, hda⟩
        · obtain ⟨pr, hpr, hpr1, hpr2⟩ := ih.2.2 q hq
          exact ⟨pr, List.mem_cons_of_mem _ hpr, hpr1, hpr2⟩

theorem company_to_convdate_ok {dates : List Nat} {sel : List String}
    {offs : List Int} {m : List (String × Nat)}
    (h : company_to_convdate dates sel offs = .ok m) :
    m.map Prod.fst = (sel.zip offs).map Prod.fst
    ∧ (∀ pr ∈ m, pr.2 ∈ dates
        ∧ ∃ q ∈ sel.zip offs, q.1 = pr.1 ∧ date_at dates q.2 = some pr.2)
    ∧ ∀ q ∈ sel.zip offs, ∃ pr ∈ m, pr.1 = q.1 ∧ date_at dates q.2 = some pr.2 :=
  convdate_forall2_aux (mapOrErr_ok_forall2 h)

/-! ## Date-range lemmas -/

theorem min_view_date_none_iff {t : FactTable} :
    min_view_date t = none ↔ t.rows = [] := by
  unfold min_view_date
  cases t.rows <;> simp

theorem max_view_date_some_of_min {t : FactTable} {lo : Nat}
    (h : min_view_date t = some lo) : ∃ hi, max_view_date t = some hi := by
  unfold min_view_date at h
  unfold max_view_date
  cases hrows : t.rows with
  | nil => rw [hrows] at h; simp at h
  | cons r rs => exact ⟨_, rfl⟩

theorem min_view_date_spec {t : FactTable} {lo : Nat}
    (h : min_view_date t = some lo) :
    (∃ r ∈ t.rows, r.view_date = lo) ∧ ∀ r ∈ t.rows, lo ≤ r.view_date := by
  unfold min_view_date at h
  cases hrows : t.rows with
  | nil => rw [hrows] at h; cases h
  | cons r rs =>
    rw [hrows] at h
    simp only [List.map_cons] at h
    have hlo : (rs.map FactRow.view_date).foldl min r.view_date = lo :=
      Option.some.inj h
    constructor
    · have hm := foldl_min_mem (rs.map FactRow.view_date) r.view_date
      rw [hlo] at hm
      rcases List.mem_cons.mp hm with he | he
      · exact ⟨r, List.mem_cons_self _ _, he.symm⟩
      · obtain ⟨r', hr', he'⟩ := List.mem_map.mp he
        exact ⟨r', List.mem_cons_of_mem _ hr', he'⟩
    · intro r' hr'
      rw [← hlo]
      rcases List.mem_cons.mp hr' with rfl | hr'
      · exact foldl_min_le_init _ _
      · exact foldl_min_le_mem _ _ _ (List.mem_map_of_mem FactRow.view_date hr')

theorem max_view_date_spec {t : FactTable} {hi : Nat}
    (h : max_view_date t = some hi) :
    (∃ r ∈ t.rows, r.view_date = hi) ∧ ∀ r ∈ t.rows, r.view_date ≤ hi := by
  unfold max_view_date at h
  cases hrows : t.rows with
  | nil => rw [hrows] at h; cases h
  | cons r rs =>
    rw [hrows] at h
    simp only [List.map_cons] at h
    have hhi : (rs.map FactRow.view_date).foldl max r.view_date = hi :=
      Option.some.inj h
    constructor
    · have hm := foldl_max_mem (rs.map FactRow.view_date) r.view_date
      rw [hhi] at hm
      rcases List.mem_cons.mp hm with he | he
      · exact ⟨r, List.mem_cons_self _ _, he.symm⟩
      · obtain ⟨r', hr', he'⟩ := List.mem_map.mp he
        exact ⟨r', List.mem_cons_of_mem _ hr', he'⟩
    · intro r' hr'
      rw [← hhi]
      rcases List.mem_cons.mp hr' with rfl | hr'
      · exact le_foldl_max_init _ _
      · exact le_foldl_max_mem _ _ _ (List.mem_map_of_mem FactRow.view_date hr')

theorem min_date_le_max_date {t : FactTable} {lo hi : Nat}
    (hmin : min_view_date t = some lo) (hmax : max_view_date t = some hi) :
    lo ≤ hi := by
  obtain ⟨r, hr, hlo⟩ := (min_view_date_spec hmin).1
  have h1 := (min_view_date_spec hmin).2 r hr
  have h2 := (max_view_date_spec hmax).2 r hr
  omega

theorem date_index_eq {t : FactTable} {lo hi : Nat}
    (hmin : min_view_date t = some lo) (hmax : max_view_date t = some hi) :
    date_index t = List.range' lo (hi - lo + 1) := by
  unfold date_index
  rw [hmin, hmax]

theorem mem_date_index {t : FactTable} {lo hi : Nat}
    (hmin : min_view_date t = some lo) (hmax : max_view_date t = some hi)
    (d : Nat) : d ∈ date_index t ↔ lo ≤ d ∧ d ≤ hi := by
  rw [date_index_eq hmin hmax, List.mem_range'_1]
  have := min_date_le_max_date hmin hmax
  omega

theorem nodup_date_index (t : FactTable) : (date_index t).Nodup := by
  unfold date_index
  split
  · exact List.nodup_range' _ _
  · exact List.nodup_nil

/-! ## The grid of `(company, day)` pairs -/

theorem mem_dim_pairs {t : FactTable} {c : String} {d : Nat} :
    (c, d) ∈ dim_pairs t ↔ c ∈ unique_companies t ∧ d ∈ date_index t :=
  List.mem_product

theorem length_dim_pairs (t : FactTable) :
    (dim_pairs t).length = (unique_companies t).length * (date_index t).length :=
  List.length_product _ _

theorem nodup_dim_pairs (t : FactTable) : (dim_pairs t).Nodup :=
  (nodup_firstUnique _).product (nodup_date_index t)

theorem mem_unique_companies {t : FactTable} {c : String} :
    c ∈ unique_companies t ↔ ∃ r ∈ t.rows, r.company_id = some c := by
  unfold unique_companies
  rw [mem_firstUnique]
  simp only [List.mem_filterMap, List.mem_map, id_eq]
  constructor
  · rintro ⟨oc, ⟨r, hr, rfl⟩, hoc⟩
    exact ⟨r, hr, hoc⟩
  · rintro ⟨r, hr, hoc⟩
    exact ⟨r.company_id, ⟨r, hr, rfl⟩, hoc⟩

theorem out_map_pairs (t : FactTable) (sel : List String)
    (m : List (String × Nat)) :
    ((dim_pairs t).map (dim_row t sel m)).map (fun r => (r.company_id, r.view_date))
      = dim_pairs t := by
  rw [List.map_map]
  have hid : ((fun r : DimRow => (r.company_id, r.view_date)) ∘ dim_row t sel m)
      = id := by
    funext p
    cases p
    rfl
  rw [hid, List.map_id]

/-! ## Selection and baseline membership lemmas -/

theorem baseline_of_mem_trialing {t : FactTable} {c : String}
    (h : c ∈ trialing_companies t) :
    compute_baseline_status_by_company t c = "Trialing" := by
  have h' : c ∈ (sorted_company_keys t).filter
      (fun c => compute_baseline_status_by_company t c == "Trialing") := h
  have hb := List.of_mem_filter h'
  exact eq_of_beq hb

theorem trialing_subset_unique {t : FactTable} {c : String}
    (h : c ∈ trialing_companies t) : c ∈ unique_companies t := by
  have h' : c ∈ (sorted_company_keys t).filter
      (fun c => compute_baseline_status_by_company t c == "Trialing") := h
  have h2 : c ∈ sortStrings (unique_companies t) := List.mem_of_mem_filter h'
  exact mem_sortStrings.mp h2

theorem selected_empty_of_num_zero {σ : Type} (ops : RngOps σ) (s0 : σ)
    {cfg : GenerationConfig} {t : FactTable} (h : num_to_convert cfg t = 0) :
    selected ops s0 cfg t = [] := by
  unfold selected companies_to_convert
  rw [h]
  split
  · rfl
  · rw [if_neg (by omega)]

/-! ## Inverting a successful run of the generator -/

theorem generate_ok_elim {σ : Type} {ops : RngOps σ} {s0 : σ}
    {cfg : GenerationConfig} {t : FactTable} {out : List DimRow}
    (h : generate_company_date_dim ops s0 cfg t = .ok out) :
    (t.hasStatus || t.hasCompanyStatus) = true
    ∧ (∃ lo, min_view_date t = some lo)
    ∧ ((selected ops s0 cfg t = [] ∧ out = (dim_pairs t).map (dim_row t [] []))
      ∨ (selected ops s0 cfg t ≠ []
        ∧ ∃ m, company_to_convdate (date_index t) (selected ops s0 cfg t)
            (drawn_offsets ops s0 cfg t) = .ok m
          ∧ out = (dim_pairs t).map (dim_row t (selected ops s0 cfg t) m))) := by
  unfold generate_company_date_dim at h
  cases hmin : min_view_date t with
  | none => rw [hmin] at h; cases h
  | some lo =>
    rw [hmin] at h
    by_cases hcol : (t.hasStatus || t.hasCompanyStatus) = true
    · rw [if_pos hcol] at h
      refine ⟨hcol, ⟨lo, rfl⟩, ?_⟩
      by_cases hsel : (selected ops s0 cfg t).isEmpty = true
      · rw [if_pos hsel] at h
        cases h
        exact Or.inl ⟨List.isEmpty_iff.mp hsel, rfl⟩
      · rw [if_neg hsel] at h
        cases hm : company_to_convdate (date_index t) (selected ops s0 cfg t)
            (drawn_offsets ops s0 cfg t) with
        | error e => rw [hm] at h; cases h
        | ok m =>
          rw [hm] at h
          cases h
          refine Or.inr ⟨?_, m, rfl, rfl⟩
          intro hnil
          exact hsel (by rw [hnil]; rfl)
    · rw [if_neg hcol] at h
      cases h

theorem generate_ok_shape {σ : Type} {ops : RngOps σ} {s0 : σ}
    {cfg : GenerationConfig} {t : FactTable} {out : List DimRow}
    (h : generate_company_date_dim ops s0 cfg t = .ok out) :
    ∃ sel m, out = (dim_pairs t).map (dim_row t sel m) := by
  rcases (generate_ok_elim h).2.2 with ⟨_, hout⟩ | ⟨_, m, _, hout⟩
  · exact ⟨[], [], hout⟩
  · exact ⟨_, m, hout⟩

/-! ## The claims -/

theorem count_nodup_eq_ite {α : Type} [BEq α] [LawfulBEq α] :
    ∀ {l : List α}, l.Nodup → ∀ a : α, l.count a = if a ∈ l then 1 else 0
  | [], _, a => by simp
  | x :: xs, hnd, a => by
    rw [List.count_cons]
    have hx : x ∉ xs := (List.nodup_cons.mp hnd).1
    have hxs := (List.nodup_cons.mp hnd).2
    rw [count_nodup_eq_ite hxs a]
    by_cases hax : a = x
    · subst hax
      simp [hx]
    · have hb : (a == x) = false := beq_eq_false_iff_ne.mpr hax
      have hxa : ¬ x = a := fun h => hax h.symm
      simp [hb, List.mem_cons, hax, hxa]

theorem getD_mem_of_lt {l : List String} {n : Nat} {d : String}
    (h : n < l.length) : l.getD n d ∈ l := by
  rw [List.getD_eq_getElem l d h]
  exact List.getElem_mem h

/-- C6: industry assignment is a pure deterministic function of the
company-id string: MD5 of its UTF-8 bytes, digest read as a big unsigned
integer, reduced mod 12, indexing the fixed ordered 12-element industry
list; the same id always yields the same label, the empty string included.
The fourth conjunct checks the MD5 embedding against the well-known digest
of the empty message. -/
theorem industry_assignment_spec :
    (∀ id : String, assign_industry_deterministically id ∈ INDUSTRIES)
    ∧ (∀ id₁ id₂ : String, id₁ = id₂ →
        assign_industry_deterministically id₁ = assign_industry_deterministically id₂)
    ∧ (∀ id : String, assign_industry_deterministically id
        = INDUSTRIES.getD (md5HexNat (utf8Bytes id) % 12) "")
    ∧ md5HexNat (utf8Bytes "") = 0xd41d8cd98f00b204e9800998ecf8427e
    ∧ assign_industry_deterministically "" = "Media" := by
  refine ⟨?_, ?_, ?_, ?_, ?_⟩
  · intro id
    have hlt : md5HexNat (utf8Bytes id) % INDUSTRIES.length < INDUSTRIES.length :=
      Nat.mod_lt _ (by decide)
    exact getD_mem_of_lt hlt
  · intro id₁ id₂ h
    rw [h]
  · intro id
    rfl
  · rfl
  · rfl

theorem industry_assignment_spec_witness :
    assign_industry_deterministically "A" = assign_industry_deterministically "A"
    ∧ assign_industry_deterministically "A" = "Healthcare" :=
  ⟨industry_assignment_spec.2.1 "A" "A" rfl, by decide⟩

/-- C8: on an empty input table the generator fails fast (the embedded
`pd.date_range` error on `NaT` bounds) and never returns an output; every
successful run comes from a non-empty table. -/
theorem empty_input_fails_fast {σ : Type} (ops : RngOps σ) (s0 : σ)
    (cfg : GenerationConfig) (t : FactTable) :
    (t.rows = [] →
      generate_company_date_dim ops s0 cfg t
        = .error "Neither `start` nor `end` can be NaT")
    ∧ ∀ out, generate_company_date_dim ops s0 cfg t = .ok out → t.rows ≠ [] := by
  constructor
  · intro h
    unfold generate_company_date_dim
    rw [min_view_date_none_iff.mpr h]
  · intro out hok h
    obtain ⟨lo, hmin⟩ := (generate_ok_elim hok).2.1
    rw [min_view_date_none_iff.mpr h] at hmin
    cases hmin

theorem empty_input_fails_fast_witness :
    generate_company_date_dim trivRng 0 cfg0 TE
      = .error "Neither `start` nor `end` can be NaT" :=
  (empty_input_fails_fast trivRng 0 cfg0 TE).1 rfl

/-- C9: a table with the required `COMPANY_ID` and `VIEW_DATE` columns but
neither `STATUS` nor `COMPANY_STATUS` makes the generator raise the
groupby `KeyError` instead of succeeding with baseline `"Trialing"`: the
status column is not in fact optional in the code. -/
theorem status_column_missing_raises :
    generate_company_date_dim trivRng 0 cfg0 T9
      = .error "Column not found: STATUS" := rfl

/-- C7: the generator is a deterministic function of the seeded generator
state, the configuration and the input table: two runs with equal seeds
and equal inputs produce equal outputs; and the per-company offset draw
consumes the generator state left by the company-selection draw (the
second conjunct), fixing the order of the random draws. -/
theorem generate_deterministic {σ : Type} (ops : RngOps σ) (mkRng : Int → σ)
    (seed₁ seed₂ : Int) (cfg : GenerationConfig) (t₁ t₂ : FactTable)
    (hs : seed₁ = seed₂) (ht : t₁ = t₂) :
    generate_company_date_dim ops (mkRng seed₁) cfg t₁
      = generate_company_date_dim ops (mkRng seed₂) cfg t₂
    ∧ drawn_offsets ops (mkRng seed₁) cfg t₁
        = (ops.integers (min_offset cfg (total_days t₁))
            (max_offset cfg (total_days t₁) + 1)
            (selected ops (mkRng seed₁) cfg t₁).length
            ((companies_to_convert ops (mkRng seed₁) cfg t₁).2)).1 := by
  subst hs
  subst ht
  exact ⟨rfl, rfl⟩

theorem generate_deterministic_witness :
    generate_company_date_dim trivRng (Int.toNat 42) cfg0 T0
      = generate_company_date_dim trivRng (Int.toNat 42) cfg0 T0 :=
  (generate_deterministic trivRng Int.toNat 42 42 cfg0 T0 T0 rfl rfl).1

/-- C3: the baseline status of a company is computed from its group of
fact rows with null statuses dropped: `"Trialing"` when nothing remains,
otherwise a most frequent value of the group. -/
theorem baseline_status_spec (t : FactTable) (c : String) :
    (company_status_values t c = [] →
      compute_baseline_status_by_company t c = "Trialing")
    ∧ (company_status_values t c ≠ [] →
        compute_baseline_status_by_company t c ∈ company_status_values t c
        ∧ ∀ v : String, (company_status_values t c).count v
            ≤ (company_status_values t c).count
                (compute_baseline_status_by_company t c)) := by
  constructor
  · intro h
    unfold compute_baseline_status_by_company
    exact mode_or_trialing_of_nil h
  · intro h
    have hspec := mode_or_trialing_spec h
    unfold compute_baseline_status_by_company
    refine ⟨hspec.1, ?_⟩
    intro v
    by_cases hv : v ∈ company_status_values t c
    · calc (company_status_values t c).count v
          ≤ max_count (company_status_values t c) := count_le_max_count hv
        _ = (company_status_values t c).count
              (mode_or_trialing (company_status_values t c)) := hspec.2.symm
    · rw [List.count_eq_zero_of_not_mem hv]
      exact Nat.zero_le _

theorem baseline_status_spec_witness :
    company_status_values T0 "A" ≠ []
    ∧ compute_baseline_status_by_company T0 "A" ∈ company_status_values T0 "A" :=
  ⟨by decide, ((baseline_status_spec T0 "A").2 (by decide)).1⟩

/-- C10: when several status values are tied for most frequent in a
company's non-null fact statuses, the baseline picked is the code-point
lexicographically smallest tied value (`Series.mode` returns the tied
modes sorted and the code takes the first), and the result does not depend
on the order of the input rows. -/
theorem mode_tie_break_spec (t : FactTable) (c : String) (v₁ v₂ : String)
    (h₁ : v₁ ∈ company_status_values t c)
    (h₂ : v₂ ∈ company_status_values t c)
    (hne : v₁ ≠ v₂)
    (hc₁ : (company_status_values t c).count v₁
      = max_count (company_status_values t c))
    (hc₂ : (company_status_values t c).count v₂
      = max_count (company_status_values t c)) :
    pyStrLeP (compute_baseline_status_by_company t c) v₁
    ∧ pyStrLeP (compute_baseline_status_by_company t c) v₂
    ∧ (company_status_values t c).count (compute_baseline_status_by_company t c)
        = max_count (company_status_values t c)
    ∧ ∀ t' : FactTable, t'.hasStatus = t.hasStatus →
        t'.hasCompanyStatus = t.hasCompanyStatus → List.Perm t'.rows t.rows →
        compute_baseline_status_by_company t' c
          = compute_baseline_status_by_company t c := by
  have hl : company_status_values t c ≠ [] := by
    intro h
    rw [h] at h₁
    exact absurd h₁ (List.not_mem_nil _)
  obtain ⟨rest, hhead⟩ := mode_or_trialing_head hl
  have hb1 : pyStrLeP (mode_or_trialing (company_status_values t c)) v₁ :=
    series_mode_head_le hhead v₁ (mem_series_mode.mpr ⟨h₁, hc₁⟩)
  have hb2 : pyStrLeP (mode_or_trialing (company_status_values t c)) v₂ :=
    series_mode_head_le hhead v₂ (mem_series_mode.mpr ⟨h₂, hc₂⟩)
  have hmax := (mode_or_trialing_spec hl).2
  exact ⟨hb1, hb2, hmax, fun t' hs hcs hp => compute_baseline_perm c hs hcs hp⟩

theorem mode_tie_break_spec_witness :
    pyStrLeP (compute_baseline_status_by_company T10 "A") "Trialing"
    ∧ compute_baseline_status_by_company T10 "A" = "Paying" :=
  ⟨(mode_tie_break_spec T10 "A" "Paying" "Trialing" (by decide) (by decide)
      (by decide) (by decide) (by decide)).2.1, by decide⟩

/-- C4: the number of companies converted is the floor of
`|eligible| * ratio` (with ratio defaulting to 1/10), where the eligible
set is the baseline-Trialing companies; whenever the product is below one
the floor is zero and nothing at all is converted: the selection is empty
and every output row keeps its baseline status. -/
theorem num_to_convert_floor_spec (cfg : GenerationConfig) (t : FactTable) :
    num_to_convert cfg t
      = (⌊((trialing_companies t).length : ℚ) * cfg.convert_trialing_ratio⌋).toNat
    ∧ (((trialing_companies t).length : ℚ) * cfg.convert_trialing_ratio < 1
        ↔ ((trialing_companies t).length : Int) * cfg.convert_trialing_ratio.num
            < (cfg.convert_trialing_ratio.den : Int))
    ∧ (((trialing_companies t).length : Int) * cfg.convert_trialing_ratio.num
          < (cfg.convert_trialing_ratio.den : Int) → num_to_convert cfg t = 0)
    ∧ (num_to_convert cfg t = 0 →
        ∀ (σ : Type) (ops : RngOps σ) (s0 : σ),
          selected ops s0 cfg t = []
          ∧ ∀ out, generate_company_date_dim ops s0 cfg t = .ok out →
              ∀ r ∈ out,
                r.status = compute_baseline_status_by_company t r.company_id) := by
  have hden : (0 : Int) < (cfg.convert_trialing_ratio.den : Int) := by
    exact_mod_cast cfg.convert_trialing_ratio.den_pos
  have hq : ((trialing_companies t).length : ℚ) * cfg.convert_trialing_ratio
      = ((((trialing_companies t).length : Int)
          * cfg.convert_trialing_ratio.num : Int) : ℚ)
        / ((cfg.convert_trialing_ratio.den : ℕ) : ℚ) := by
    conv_lhs => rw [← Rat.num_div_den cfg.convert_trialing_ratio]
    push_cast
    ring
  refine ⟨?_, ?_, ?_, ?_⟩
  · rw [hq, Rat.floor_intCast_div_natCast]
    unfold num_to_convert
    rcases le_or_lt 0 (((trialing_companies t).length : Int)
        * cfg.convert_trialing_ratio.num) with hnn | hneg
    · rw [Int.tdiv_eq_ediv hnn (le_of_lt hden)]
    · have h1 : (((trialing_companies t).length : Int)
          * cfg.convert_trialing_ratio.num).tdiv
            (cfg.convert_trialing_ratio.den : Int) ≤ 0 := by
        rw [show ((trialing_companies t).length : Int)
            * cfg.convert_trialing_ratio.num
            = -(-(((trialing_companies t).length : Int)
                * cfg.convert_trialing_ratio.num)) by ring, Int.neg_tdiv]
        have := @Int.tdiv_nonneg
          (-(((trialing_companies t).length : Int)
            * cfg.convert_trialing_ratio.num))
          ((cfg.convert_trialing_ratio.den : Int)) (by omega) (by omega)
        omega
      have h2 : (((trialing_companies t).length : Int)
          * cfg.convert_trialing_ratio.num) / (cfg.convert_trialing_ratio.den : Int)
            < 0 := Int.ediv_neg' hneg hden
      rw [Int.toNat_of_nonpos h1, Int.toNat_of_nonpos (le_of_lt h2)]
  · rw [hq]
    rw [div_lt_one (by exact_mod_cast cfg.convert_trialing_ratio.den_pos)]
    exact_mod_cast Iff.rfl
  · intro h
    unfold num_to_convert
    rcases le_or_lt 0 (((trialing_companies t).length : Int)
        * cfg.convert_trialing_ratio.num) with hnn | hneg
    · rw [Int.tdiv_eq_zero_of_lt hnn h]
      rfl
    · have h1 : (((trialing_companies t).length : Int)
          * cfg.convert_trialing_ratio.num).tdiv
            (cfg.convert_trialing_ratio.den : Int) ≤ 0 := by
        rw [show ((trialing_companies t).length : Int)
            * cfg.convert_trialing_ratio.num
            = -(-(((trialing_companies t).length : Int)
                * cfg.convert_trialing_ratio.num)) by ring, Int.neg_tdiv]
        have := @Int.tdiv_nonneg
          (-(((trialing_companies t).length : Int)
            * cfg.convert_trialing_ratio.num))
          ((cfg.convert_trialing_ratio.den : Int)) (by omega) (by omega)
        omega
      exact Int.toNat_of_nonpos h1
  · intro h σ ops s0
    refine ⟨selected_empty_of_num_zero ops s0 h, ?_⟩
    intro out hok r hr
    rcases (generate_ok_elim hok).2.2 with ⟨_, hout⟩ | ⟨hne, _⟩
    · rw [hout] at hr
      obtain ⟨p, hp, rfl⟩ := List.mem_map.mp hr
      show row_status t [] [] p.1 p.2 = _
      unfold row_status
      rfl
    · exact absurd (selected_empty_of_num_zero ops s0 h) hne

theorem num_to_convert_floor_spec_witness :
    num_to_convert cfg0 T0 = 0 ∧ selected trivRng 0 cfg0 T0 = [] :=
  ⟨((num_to_convert_floor_spec cfg0 T0).2.2.1 (by decide)),
   (((num_to_convert_floor_spec cfg0 T0).2.2.2 (by decide)) Nat trivRng 0).1⟩

/-- C1: a successful run on a non-empty table produces exactly the
cartesian product of the distinct company ids with every day from the
global minimum to the global maximum view date: the row count is
`|companies| * (inclusive day count)` and every in-range `(company, day)`
cell appears exactly once, with no gaps. -/
theorem output_full_grid {σ : Type} (ops : RngOps σ) (s0 : σ)
    (cfg : GenerationConfig) (t : FactTable) (out : List DimRow)
    (hrows : t.rows ≠ [])
    (hok : generate_company_date_dim ops s0 cfg t = .ok out) :
    ∃ lo hi, min_view_date t = some lo ∧ max_view_date t = some hi
      ∧ out.length = (unique_companies t).length * (hi - lo + 1)
      ∧ (∀ c d, (out.map fun r => (r.company_id, r.view_date)).count (c, d)
          = if c ∈ unique_companies t ∧ lo ≤ d ∧ d ≤ hi then 1 else 0)
      ∧ (∀ c, c ∈ unique_companies t ↔ ∃ r ∈ t.rows, r.company_id = some c)
      ∧ (∀ r ∈ t.rows, lo ≤ r.view_date ∧ r.view_date ≤ hi)
      ∧ (∃ r ∈ t.rows, r.view_date = lo)
      ∧ (∃ r ∈ t.rows, r.view_date = hi) := by
  obtain ⟨lo, hmin⟩ := (generate_ok_elim hok).2.1
  obtain ⟨hi, hmax⟩ := max_view_date_some_of_min hmin
  obtain ⟨sel, m, hout⟩ := generate_ok_shape hok
  refine ⟨lo, hi, hmin, hmax, ?_, ?_, fun c => mem_unique_companies, ?_,
    (min_view_date_spec hmin).1, (max_view_date_spec hmax).1⟩
  · rw [hout, List.length_map, length_dim_pairs, date_index_eq hmin hmax]
    simp [List.length_range']
  · intro c d
    rw [hout, out_map_pairs]
    rw [count_nodup_eq_ite (nodup_dim_pairs t) (c, d)]
    by_cases hmem : (c, d) ∈ dim_pairs t
    · have hcd := mem_dim_pairs.mp hmem
      rw [if_pos hmem,
        if_pos ⟨hcd.1, (mem_date_index hmin hmax d).mp hcd.2⟩]
    · rw [if_neg hmem, if_neg]
      rintro ⟨hc, hd1, hd2⟩
      exact hmem (mem_dim_pairs.mpr ⟨hc, (mem_date_index hmin hmax d).mpr ⟨hd1, hd2⟩⟩)
  · intro r hr
    exact ⟨(min_view_date_spec hmin).2 r hr, (max_view_date_spec hmax).2 r hr⟩

theorem output_full_grid_witness :
    min_view_date T0 = some 0 ∧ max_view_date T0 = some 2
    ∧ outT0.length = (unique_companies T0).length * 3 := by
  obtain ⟨lo, hi, hmin, hmax, hlen, _⟩ :=
    output_full_grid trivRng 0 cfg0 T0 outT0 (by decide) rfl
  have hlo : lo = 0 := Option.some.inj (hmin.symm.trans (by rfl))
  have hhi : hi = 2 := Option.some.inj (hmax.symm.trans (by rfl))
  subst hlo
  subst hhi
  exact ⟨hmin, hmax, hlen⟩

/-- C5: the conversion offsets are requested from the generator exactly on
the inclusive interval `[min_offset, max_offset]`, with
`min_offset = min(configured_min, total_days - 1)` (default 3) and
`max_offset` the configured maximum when given, `total_days - 1`
otherwise, clamped into `[min_offset, total_days - 1]`; each selected
company's conversion date is `date_grid[offset]` for its drawn offset. -/
theorem conversion_offset_spec {σ : Type} (ops : RngOps σ) (s0 : σ)
    (cfg : GenerationConfig) (t : FactTable) (out : List DimRow)
    (hok : generate_company_date_dim ops s0 cfg t = .ok out)
    (hconf : 0 ≤ cfg.min_conversion_offset_days)
    (hdraw : ∀ x ∈ drawn_offsets ops s0 cfg t,
        min_offset cfg (total_days t) ≤ x
        ∧ x < max_offset cfg (total_days t) + 1) :
    min_offset cfg (total_days t)
        = min cfg.min_conversion_offset_days ((total_days t : Int) - 1)
    ∧ min_offset cfg (total_days t) ≤ max_offset cfg (total_days t)
    ∧ max_offset cfg (total_days t) ≤ (total_days t : Int) - 1
    ∧ (cfg.max_conversion_offset_days = none →
        max_offset cfg (total_days t) = (total_days t : Int) - 1)
    ∧ ∀ m, company_to_convdate (date_index t) (selected ops s0 cfg t)
          (drawn_offsets ops s0 cfg t) = .ok m →
        ∀ pr ∈ (selected ops s0 cfg t).zip (drawn_offsets ops s0 cfg t),
          min_offset cfg (total_days t) ≤ pr.2
          ∧ pr.2 ≤ max_offset cfg (total_days t)
          ∧ ∃ cd, (date_index t).get? pr.2.toNat = some cd
              ∧ date_at (date_index t) pr.2 = some cd ∧ (pr.1, cd) ∈ m := by
  obtain ⟨lo, hmin⟩ := (generate_ok_elim hok).2.1
  obtain ⟨hi, hmax⟩ := max_view_date_some_of_min hmin
  have htot : 1 ≤ total_days t := by
    unfold total_days
    rw [date_index_eq hmin hmax]
    simp [List.length_range']
  have hminoff : min_offset cfg (total_days t)
      = min cfg.min_conversion_offset_days ((total_days t : Int) - 1) := by
    unfold min_offset
    omega
  have hminoff_nonneg : 0 ≤ min_offset cfg (total_days t) := by
    unfold min_offset
    omega
  have hmaxoff_le : max_offset cfg (total_days t) ≤ (total_days t : Int) - 1 := by
    unfold max_offset min_offset
    omega
  have hminoff_le : min_offset cfg (total_days t) ≤ max_offset cfg (total_days t) := by
    unfold max_offset
    exact le_max_left _ _
  refine ⟨hminoff, hminoff_le, hmaxoff_le, ?_, ?_⟩
  · intro hnone
    unfold max_offset min_offset
    rw [hnone]
    show max _ (min ((none : Option Int).getD _) _) = _
    rw [Option.getD_none]
    omega
  · intro m hm pr hpr
    have hx := hdraw pr.2 (List.of_mem_zip hpr).2
    refine ⟨hx.1, by omega, ?_⟩
    obtain ⟨e, he, he1, he2⟩ := (company_to_convdate_ok hm).2.2 pr hpr
    have h0 : (0 : Int) ≤ pr.2 := le_trans hminoff_nonneg hx.1
    have hlt : pr.2.toNat < (date_index t).length := by
      have h1 : pr.2 ≤ (total_days t : Int) - 1 := by omega
      unfold total_days at h1 htot
      omega
    rw [date_at_nonneg h0] at he2
    refine ⟨e.2, ?_, ?_, ?_⟩
    · exact he2
    · rw [date_at_nonneg h0]
      exact he2
    · have : (pr.1, e.2) = e := by
        obtain ⟨e1, e2⟩ := e
        simp only at he1
        rw [he1]
      rw [this]
      exact he

theorem conversion_offset_spec_witness :
    min_offset cfg2 (total_days T2)
        = min cfg2.min_conversion_offset_days ((total_days T2 : Int) - 1)
    ∧ max_offset cfg2 (total_days T2) = (total_days T2 : Int) - 1 := by
  have h := conversion_offset_spec trivRng 0 cfg2 T2 outT2 rfl (by decide) (by decide)
  exact ⟨h.1, h.2.2.2.1 rfl⟩

/-- C2: every company selected for conversion has exactly one grid date
`d` with all its rows strictly before `d` at `"Trialing"` and all its rows
on/after `d` at `"Paying"`: a single monotonic transition with no
flapping.  The hypotheses on the oracle are the `numpy` contracts at this
call: selection draws come from the eligible set and the offset draw
returns one offset per selected company. -/
theorem converted_company_single_transition {σ : Type} (ops : RngOps σ)
    (s0 : σ) (cfg : GenerationConfig) (t : FactTable) (out : List DimRow)
    (c : String)
    (hok : generate_company_date_dim ops s0 cfg t = .ok out)
    (hc : c ∈ selected ops s0 cfg t)
    (hsub : ∀ x ∈ selected ops s0 cfg t, x ∈ trialing_companies t)
    (hlen : (drawn_offsets ops s0 cfg t).length
      = (selected ops s0 cfg t).length) :
    ∃ d, d ∈ date_index t ∧ transition_at out c d
      ∧ ∀ d', d' ∈ date_index t → transition_at out c d' → d' = d := by
  rcases (generate_ok_elim hok).2.2 with ⟨hnil, _⟩ | ⟨hne, m, hm, hout⟩
  · rw [hnil] at hc
    cases hc
  · have hzipfst : (((selected ops s0 cfg t).zip
        (drawn_offsets ops s0 cfg t)).map Prod.fst) = selected ops s0 cfg t :=
      List.map_fst_zip _ _ (le_of_eq hlen.symm)
    have hckey : c ∈ m.map Prod.fst := by
      rw [(company_to_convdate_ok hm).1, hzipfst]
      exact hc
    obtain ⟨cd, hcd⟩ := dict_find_isSome hckey
    have hcdmem : (c, cd) ∈ m := dict_find_mem hcd
    have hcddate : cd ∈ date_index t :=
      ((company_to_convdate_ok hm).2.1 (c, cd) hcdmem).1
    have hbase : compute_baseline_status_by_company t c = "Trialing" :=
      baseline_of_mem_trialing (hsub c hc)
    have hcu : c ∈ unique_companies t := trialing_subset_unique (hsub c hc)
    have hcontains : (selected ops s0 cfg t).contains c = true :=
      string_contains_iff.mpr hc
    have hstat : ∀ d, row_status t (selected ops s0 cfg t) m c d
        = if cd ≤ d then "Paying" else "Trialing" := by
      intro d
      unfold row_status conv_applies
      rw [hcd, hcontains, hbase]
      by_cases hle : cd ≤ d <;> simp [hle]
    have hrowstat : ∀ r ∈ out, r.company_id = c →
        r.status = if cd ≤ r.view_date then "Paying" else "Trialing" := by
      intro r hr hrc
      rw [hout] at hr
      obtain ⟨p, hp, rfl⟩ := List.mem_map.mp hr
      have hp1 : p.1 = c := hrc
      show row_status t (selected ops s0 cfg t) m p.1 p.2 = _
      rw [hp1]
      exact hstat p.2
    have hrowex : ∀ d ∈ date_index t,
        ∃ r ∈ out, r.company_id = c ∧ r.view_date = d := by
      intro d hd
      refine ⟨dim_row t (selected ops s0 cfg t) m (c, d), ?_, rfl, rfl⟩
      rw [hout]
      exact List.mem_map_of_mem _ (mem_dim_pairs.mpr ⟨hcu, hd⟩)
    refine ⟨cd, hcddate, ?_, ?_⟩
    · intro r hr hrc
      constructor
      · intro hlt
        rw [hrowstat r hr hrc, if_neg (by omega)]
      · intro hge
        rw [hrowstat r hr hrc, if_pos hge]
    · intro d' hd' htr
      by_contra hne'
      rcases Nat.lt_or_ge d' cd with hlt | hge
      · obtain ⟨r, hr, hrc, hrv⟩ := hrowex d' hd'
        have h1 := (htr r hr hrc).2 (by omega)
        have h2 : r.status = "Trialing" := by
          rw [hrowstat r hr hrc, if_neg (by omega)]
        rw [h1] at h2
        exact absurd h2 (by decide)
      · have hcdlt : cd < d' := by omega
        obtain ⟨r, hr, hrc, hrv⟩ := hrowex cd hcddate
        have h1 := (htr r hr hrc).1 (by omega)
        have h2 : r.status = "Paying" := by
          rw [hrowstat r hr hrc, if_pos (by omega)]
        rw [h1] at h2
        exact absurd h2 (by decide)

theorem converted_company_single_transition_witness :
    1 ∈ date_index T2 ∧ transition_at outT2 "A" 1 := by
  obtain ⟨d, hd, htr, huniq⟩ := converted_company_single_transition trivRng 0
    cfg2 T2 outT2 "A" rfl (by decide) (by decide) (by decide)
  have hd1 : d = 1 := (huniq 1 (by decide) (by decide)).symm
  subst hd1
  exact ⟨hd, htr⟩

end AnonAppPlatform
